import Mathlib

set_option maxHeartbeats 4000000

/-!
Verification of the `mutexes` repository (p2.c and its earlier revisions).

The repository is a pthread demonstration: `num_threads` worker threads each
increment a shared counter `num_loops` times under a mutex (`countLock`),
a start flag releases the workers, and each worker decrements a live-thread
count when it finishes; the main thread waits for the count to reach zero and
prints the final counter against the expected `num_loops * num_threads`.

We build two shallow embeddings, as executable interleaving step machines:

* `StateA`/`stepA`: the first revision (src/unnamed/part_000, first file):
  busy-wait on `start`, mutex-guarded increment loop (the lock/read/write/
  unlock of each `counter++` are separate steps), unguarded decrement of
  `threads` (modelled as a separate read step and write step, since it is a
  racy read-modify-write), and a main thread that spawns, raises `start`,
  spins until `threads <= 0` and then records the final printf line.

* `StateB`/`stepB`: the final revision (src/p2.c): each worker first locks
  `mainLock`, the first worker additionally locks and destroys `threadLock`
  (held by main across the spawn loop), busy-waits on `start`, then calls
  `pthread_cond_wait(&waitCond, &mainLock)`; the only
  `pthread_cond_signal(&waitCond)` is issued by a worker whose decrement of
  `threads` (under `decreLock`) reaches zero.  Condition waits have no
  spurious wakeups in the model; a signal wakes the first waiter.

Pure fragments (argument parsing via `atoi`, the mutex-initialization exit
paths of `main`, and the `all_times` microsecond arithmetic) are modelled as
plain functions.  C `long`/`int` values are modelled as `Int` (the quantities
in scope are far from the 64-bit range, so wrap-around is immaterial), and
the C int flags `start`/`firstRun`, used only as booleans, as `Bool`.
-/

namespace Mutexes

/-! ### Command-line argument parsing (p2.c `main`, lines 142-145)

`atoi` (ISO C): skip leading whitespace, accept one optional sign, then
consume leading decimal digits; a string with no leading number yields 0.
`argv` is modelled as a list of character lists. -/

/-- C `isspace` on the default locale: space, \t, \n, \v, \f, \r. -/
def isSpaceC (c : Char) : Bool := c.toNat = 32 || (9 ≤ c.toNat && c.toNat ≤ 13)

/-- C `isdigit`: the characters `'0'` (48) through `'9'` (57). -/
def isDigitC (c : Char) : Bool := 48 ≤ c.toNat && c.toNat ≤ 57

/-- Numeric value of one digit character, as used by `atoi` (`c - '0'`). -/
def digitVal (c : Char) : Int := (c.toNat : Int) - 48

/-- The digit-accumulation loop of `atoi`: consume leading digits. -/
def atoiDigits : Int → List Char → Int
  | acc, [] => acc
  | acc, c :: cs => if isDigitC c then atoiDigits (acc * 10 + digitVal c) cs else acc

/-- `atoi` after whitespace skipping: one optional sign, then digits. -/
def atoiSigned (cs : List Char) : Int :=
  match cs with
  | [] => 0
  | c :: rest =>
    if c = '+' then atoiDigits 0 rest
    else if c = '-' then - atoiDigits 0 rest
    else atoiDigits 0 cs

/-- C `atoi` on a character list. -/
def atoi (cs : List Char) : Int := atoiSigned (cs.dropWhile isSpaceC)

/-- `#define THREADS 2` (p2.c line 31). -/
def defaultThreads : Int := 2

/-- `#define LOOPS 10 * 1000 * 1000` (p2.c line 30). -/
def defaultLoops : Int := 10 * 1000 * 1000

/-- p2.c lines 142-145: `num_threads = (argc <= 1) ? THREADS : atoi(argv[1])`
and `num_loops = (argc <= 2) ? LOOPS : atoi(argv[2])`.  `argv` includes the
program name at position 0, so `argc = argv.length`. -/
def parseArgs (argv : List (List Char)) : Int × Int :=
  ((if argv.length ≤ 1 then defaultThreads else atoi (argv.getD 1 [])),
   (if argv.length ≤ 2 then defaultLoops else atoi (argv.getD 2 [])))

/-- Reference value of a big-endian decimal digit string, via `Nat.ofDigits`
(which takes digits least-significant first). -/
def decNumber (ds : List Char) : Int :=
  ((Nat.ofDigits 10 ((ds.map fun c => c.toNat - 48).reverse) : Nat) : Int)

/-! ### Mutex initialization and exit status (p2.c `main`, lines 124-139)

`main` initializes `countLock`, `decreLock`, `mainLock`, `threadLock` in that
order; on the first failure it prints a message and returns -1.  The four
booleans record which `pthread_mutex_init` calls would fail. -/

/-- `some e`: main returns exit code `e` from a failed initialization;
`none`: all four initializations succeeded and main proceeds. -/
def mainInitExit (failCount failDecre failMain failThread : Bool) : Option Int :=
  if failCount then some (-1)
  else if failDecre then some (-1)
  else if failMain then some (-1)
  else if failThread then some (-1)
  else none

/-! ### `all_times` (p2.c lines 105-119)

All computations in microseconds: `delta` is the elapsed wall-clock time,
`delta_cpu = (clock() - startc) * US_PER_S / CLOCKS_PER_SEC`, and both are
printed as `%ld.%06ld` pairs, i.e. as quotient and remainder by 10^6.  The
snprintf rendering itself is an I/O wrapper; we model the four numbers that
are printed.  The elapsed quantities in scope are nonnegative, where C and
Euclidean division agree. -/

def usPerS : Int := 1000 * 1000

/-- The `%ld.%06ld` decomposition: seconds and microseconds parts. -/
def splitUs (x : Int) : Int × Int := (x / usPerS, x % usPerS)

/-- The four numbers printed by `all_times`: wall-clock seconds and
microseconds, then CPU seconds and microseconds. -/
def all_times (startUs finishUs startc clockNow clocksPerSec : Int) :
    (Int × Int) × (Int × Int) :=
  (splitUs (finishUs - startUs), splitUs ((clockNow - startc) * usPerS / clocksPerSec))

/-! ### Model A: the first revision (src/unnamed/part_000, first file)

Worker (`thread`, lines 48-62): busy-wait on `start`; then
`for (i = 0; i < num_loops; i++) { lock(countLock); counter++; unlock }`;
then print and `threads--` (unguarded, hence split into a read step and a
write step).  Main (lines 86-115): spawn loop (`threads++` per spawn, before
`start` is raised no worker can touch `threads`, so spawn is one step);
`start = 1`; spin until `threads <= 0`; print the final line.

`workers` maps a worker index to its program point; indices `≥ spawned` are
not yet created (they keep the initial placeholder value and cannot step). -/

/-- Program points of a worker in the first revision.  `aLoop j` means `j`
full iterations of the increment loop are complete; inside the critical
section, `aCsWrite j reg` holds the value read from `counter`. -/
inductive WPA where
  | aSpin
  | aLoop (j : Int)
  | aAcqCount (j : Int)
  | aCsRead (j : Int)
  | aCsWrite (j : Int) (reg : Int)
  | aRelCount (j : Int)
  | aDecRead
  | aDecWrite (reg : Int)
  | aDone
deriving DecidableEq

/-- Program points of main in the first revision. -/
inductive MPA where
  | aSpawn
  | aSetStart
  | aWait
  | aMainDone
deriving DecidableEq

/-- Shared state of the first revision: the `state_struct` fields plus the
mutex, the thread program points and the final printed line (`output` records
the pair `(counter, num_loops * num_threads)` of the final printf). -/
structure StateA where
  num_threads : Int
  num_loops : Int
  start : Bool
  counter : Int
  threads : Int
  countLock : Option Nat
  spawned : Nat
  workers : Nat → WPA
  mainPc : MPA
  output : Option (Int × Int)

/-- Scheduler choice: one step of main or of worker `i`. -/
inductive SchedA where
  | mn
  | wk (i : Nat)
deriving DecidableEq

/-- One step of worker `i` (first revision).  A blocked or finished worker
(or an index that has not been spawned) leaves the state unchanged. -/
def stepWorkerA (s : StateA) (i : Nat) : StateA :=
  if i < s.spawned then
    match s.workers i with
    | .aSpin =>
        if s.start then { s with workers := Function.update s.workers i (.aLoop 0) } else s
    | .aLoop j =>
        if j < s.num_loops then { s with workers := Function.update s.workers i (.aAcqCount j) }
        else { s with workers := Function.update s.workers i .aDecRead }
    | .aAcqCount j =>
        match s.countLock with
        | none => { s with countLock := some i,
                           workers := Function.update s.workers i (.aCsRead j) }
        | some _ => s
    | .aCsRead j =>
        { s with workers := Function.update s.workers i (.aCsWrite j s.counter) }
    | .aCsWrite j reg =>
        { s with counter := reg + 1, workers := Function.update s.workers i (.aRelCount j) }
    | .aRelCount j =>
        { s with countLock := none, workers := Function.update s.workers i (.aLoop (j + 1)) }
    | .aDecRead =>
        { s with workers := Function.update s.workers i (.aDecWrite s.threads) }
    | .aDecWrite reg =>
        { s with threads := reg - 1, workers := Function.update s.workers i .aDone }
    | .aDone => s
  else s

/-- One step of main (first revision). -/
def stepMainA (s : StateA) : StateA :=
  match s.mainPc with
  | .aSpawn =>
      if s.threads < s.num_threads then
        { s with spawned := s.spawned + 1, threads := s.threads + 1 }
      else { s with mainPc := .aSetStart }
  | .aSetStart => { s with start := true, mainPc := .aWait }
  | .aWait =>
      if s.threads > 0 then s
      else { s with output := some (s.counter, s.num_loops * s.num_threads),
                    mainPc := .aMainDone }
  | .aMainDone => s

/-- One interleaving step of the first revision. -/
def stepA : SchedA → StateA → StateA
  | .mn, s => stepMainA s
  | .wk i, s => stepWorkerA s i

/-- Initial state of the first revision after `main` parses its arguments:
`{ .start = 0, .counter = 0, .threads = 0, .num_loops = L }`. -/
def initA (numTasks loopsPerWorker : Int) : StateA :=
  { num_threads := numTasks, num_loops := loopsPerWorker, start := false,
    counter := 0, threads := 0, countLock := none, spawned := 0,
    workers := fun _ => .aSpin, mainPc := .aSpawn, output := none }

/-- Run a schedule (list of scheduler choices, applied left to right). -/
def execA (tr : List SchedA) (s : StateA) : StateA :=
  tr.foldl (fun t a => stepA a t) s

/-! ### Model B: the final revision (src/p2.c)

Worker (`thread`, lines 58-96): lock `mainLock`; if `firstRun` then lock
`threadLock`, clear `firstRun` and destroy `threadLock` (all under
`mainLock`, so merged into the acquisition step); busy-wait on `start`;
`pthread_cond_wait(&waitCond, &mainLock)` (atomically release `mainLock` and
join the wait queue; no spurious wakeups; a woken worker reacquires
`mainLock` before returning); the increment loop under `countLock`; unlock
`mainLock`; lock `decreLock`; `threads--` (serialized by `decreLock`, so one
step); if `threads == 0` signal `waitCond` (wake the first waiter); unlock
`decreLock`.

Main (`main`, lines 121-191 after successful initialization): lock
`threadLock`; spawn loop (`threads++` per created thread); `start = 1`;
unlock `threadLock`; `sleep(1)` (no state change); lock `mainLock`; spin
with sleep until `threads <= 0`; print the final line; destroy `mainLock`;
return 0. -/

/-- Thread identifiers of the final revision: main or worker `i`. -/
inductive TidB where
  | tMain
  | tWk (i : Nat)
deriving DecidableEq

/-- Program points of a worker in the final revision. -/
inductive WPB where
  | wAcqMain
  | wFrCheck
  | wAcqTL
  | wSpin
  | wCondWait
  | wReacqMain
  | wLoop (j : Int)
  | wAcqCount (j : Int)
  | wCsRead (j : Int)
  | wCsWrite (j : Int) (reg : Int)
  | wRelCount (j : Int)
  | wRelMain
  | wAcqDecre
  | wDec
  | wSigCheck
  | wRelDecre
  | wDone
deriving DecidableEq

/-- Program points of main in the final revision. -/
inductive MPB where
  | mAcqTL
  | mSpawn
  | mSetStart
  | mRelTL
  | mSleep
  | mAcqMain
  | mWait
  | mDoneB
deriving DecidableEq

/-- Shared state of the final revision: the `state_struct` fields, the file
level statics (`firstRun`, the four mutexes, the `waitCond` queue), the
thread program points and the final printed line. -/
structure StateB where
  num_threads : Int
  num_loops : Int
  start : Bool
  counter : Int
  threads : Int
  firstRun : Bool
  countLock : Option TidB
  decreLock : Option TidB
  mainLock : Option TidB
  threadLock : Option TidB
  tlDestroyed : Bool
  waitSet : List Nat
  spawned : Nat
  workers : Nat → WPB
  mainPc : MPB
  output : Option (Int × Int)

/-- One step of worker `i` (final revision).  A blocked worker, a worker in
`pthread_cond_wait`, or an index that has not been spawned leaves the state
unchanged. -/
def stepWorkerB (s : StateB) (i : Nat) : StateB :=
  if i < s.spawned then
    match s.workers i with
    | .wAcqMain =>
        match s.mainLock with
        | none => { s with mainLock := some (.tWk i),
                           workers := Function.update s.workers i .wFrCheck }
        | some _ => s
    | .wFrCheck =>
        if s.firstRun then { s with workers := Function.update s.workers i .wAcqTL }
        else { s with workers := Function.update s.workers i .wSpin }
    | .wAcqTL =>
        match s.threadLock with
        | none => { s with threadLock := some (.tWk i), firstRun := false,
                           tlDestroyed := true,
                           workers := Function.update s.workers i .wSpin }
        | some _ => s
    | .wSpin =>
        if s.start then
          { s with mainLock := none, waitSet := s.waitSet ++ [i],
                   workers := Function.update s.workers i .wCondWait }
        else s
    | .wCondWait => s
    | .wReacqMain =>
        match s.mainLock with
        | none => { s with mainLock := some (.tWk i),
                           workers := Function.update s.workers i (.wLoop 0) }
        | some _ => s
    | .wLoop j =>
        if j < s.num_loops then { s with workers := Function.update s.workers i (.wAcqCount j) }
        else { s with workers := Function.update s.workers i .wRelMain }
    | .wAcqCount j =>
        match s.countLock with
        | none => { s with countLock := some (.tWk i),
                           workers := Function.update s.workers i (.wCsRead j) }
        | some _ => s
    | .wCsRead j =>
        { s with workers := Function.update s.workers i (.wCsWrite j s.counter) }
    | .wCsWrite j reg =>
        { s with counter := reg + 1, workers := Function.update s.workers i (.wRelCount j) }
    | .wRelCount j =>
        { s with countLock := none, workers := Function.update s.workers i (.wLoop (j + 1)) }
    | .wRelMain =>
        { s with mainLock := none, workers := Function.update s.workers i .wAcqDecre }
    | .wAcqDecre =>
        match s.decreLock with
        | none => { s with decreLock := some (.tWk i),
                           workers := Function.update s.workers i .wDec }
        | some _ => s
    | .wDec =>
        { s with threads := s.threads - 1,
                 workers := Function.update s.workers i .wSigCheck }
    | .wSigCheck =>
        if s.threads = 0 then
          match s.waitSet with
          | [] => { s with workers := Function.update s.workers i .wRelDecre }
          | k :: rest =>
              { s with waitSet := rest,
                       workers := Function.update
                         (Function.update s.workers i .wRelDecre) k .wReacqMain }
        else { s with workers := Function.update s.workers i .wRelDecre }
    | .wRelDecre =>
        { s with decreLock := none, workers := Function.update s.workers i .wDone }
    | .wDone => s
  else s

/-- One step of main (final revision). -/
def stepMainB (s : StateB) : StateB :=
  match s.mainPc with
  | .mAcqTL =>
      match s.threadLock with
      | none => { s with threadLock := some .tMain, mainPc := .mSpawn }
      | some _ => s
  | .mSpawn =>
      if s.threads < s.num_threads then
        { s with spawned := s.spawned + 1, threads := s.threads + 1 }
      else { s with mainPc := .mSetStart }
  | .mSetStart => { s with start := true, mainPc := .mRelTL }
  | .mRelTL => { s with threadLock := none, mainPc := .mSleep }
  | .mSleep => { s with mainPc := .mAcqMain }
  | .mAcqMain =>
      match s.mainLock with
      | none => { s with mainLock := some .tMain, mainPc := .mWait }
      | some _ => s
  | .mWait =>
      if s.threads > 0 then s
      else { s with output := some (s.counter, s.num_loops * s.num_threads),
                    mainPc := .mDoneB }
  | .mDoneB => s

/-- One interleaving step of the final revision. -/
def stepB : TidB → StateB → StateB
  | .tMain, s => stepMainB s
  | .tWk i, s => stepWorkerB s i

/-- Initial state of the final revision after the four mutexes initialize
successfully and `main` parses its arguments. -/
def initB (numTasks loopsPerWorker : Int) : StateB :=
  { num_threads := numTasks, num_loops := loopsPerWorker, start := false,
    counter := 0, threads := 0, firstRun := true, countLock := none,
    decreLock := none, mainLock := none, threadLock := none,
    tlDestroyed := false, waitSet := [], spawned := 0,
    workers := fun _ => .wAcqMain, mainPc := .mAcqTL, output := none }

/-- Run a schedule (list of thread choices, applied left to right). -/
def execB (tr : List TidB) (s : StateB) : StateB :=
  tr.foldl (fun t a => stepB a t) s

/-! ### Invariant of the final revision

Every worker must pass `pthread_cond_wait` before its first increment, and
the only signal is issued by a worker that has already finished its loop; so
(without spurious wakeups) no worker ever passes the wait, the counter stays
0, and `threads` is never decremented. -/

/-- Worker program points at or before the `pthread_cond_wait` call. -/
def preWaitB (w : WPB) : Bool :=
  match w with
  | .wAcqMain => true
  | .wFrCheck => true
  | .wAcqTL => true
  | .wSpin => true
  | .wCondWait => true
  | _ => false

/-- Main program points at which `state.start = 1` has been executed. -/
def startedB (m : MPB) : Bool :=
  match m with
  | .mAcqTL => false
  | .mSpawn => false
  | .mSetStart => false
  | _ => true

/-- Main program points at or before the spawn loop. -/
def inSpawnB (m : MPB) : Bool :=
  match m with
  | .mAcqTL => true
  | .mSpawn => true
  | _ => false

/-- Inductive invariant of the final revision: the counter is never
incremented, no worker passes the condition wait, `threads` always equals
the number of spawned workers (no decrement ever runs), the start flag
mirrors main's program point, and (when at least one worker is requested)
main never reaches its final printf. -/
structure IB (s : StateB) : Prop where
  ctr : s.counter = 0
  thr : s.threads = (s.spawned : Int)
  pw : ∀ i, i < s.spawned → preWaitB (s.workers i) = true
  unsp : ∀ i, s.spawned ≤ i → s.workers i = .wAcqMain
  st : s.start = startedB s.mainPc
  sp_lo : inSpawnB s.mainPc = true ∨ s.num_threads ≤ s.threads
  sp_hi : 0 ≤ s.num_threads → s.threads ≤ s.num_threads
  nodone : 1 ≤ s.num_threads → s.mainPc ≠ .mDoneB ∧ s.output = none

/-! ### Invariant of the first revision

The counter equals the total number of committed increments; the mutex
serializes the critical sections, so the value read by the lock holder is
never stale; and `threads` dominates the number of unfinished workers (a
lost update in the unguarded decrement can only leave `threads` too large,
never too small), so `threads = 0` implies every worker has finished. -/

/-- Number of increments of `counter` committed by a worker at the given
program point (the write in `aCsWrite` is committed upon reaching
`aRelCount`; a worker past its loop has committed all `L`). -/
def incsA (L : Int) : WPA → Int
  | .aSpin => 0
  | .aLoop j => j
  | .aAcqCount j => j
  | .aCsRead j => j
  | .aCsWrite j _ => j
  | .aRelCount j => j + 1
  | .aDecRead => L
  | .aDecWrite _ => L
  | .aDone => L

/-- 1 while the worker has not yet written its decrement of `threads`. -/
def undoneA : WPA → Int
  | .aDone => 0
  | _ => 1

/-- Worker program points inside the `countLock` critical section. -/
def inCSA : WPA → Bool
  | .aCsRead _ => true
  | .aCsWrite _ _ => true
  | .aRelCount _ => true
  | _ => false

/-- Loop-counter bounds at each worker program point. -/
def wBounds (L : Int) : WPA → Prop
  | .aSpin => True
  | .aLoop j => 0 ≤ j ∧ j ≤ L
  | .aAcqCount j => 0 ≤ j ∧ j < L
  | .aCsRead j => 0 ≤ j ∧ j < L
  | .aCsWrite j _ => 0 ≤ j ∧ j < L
  | .aRelCount j => 0 ≤ j ∧ j < L
  | .aDecRead => True
  | .aDecWrite _ => True
  | .aDone => True

/-- Sum of a ghost quantity over the spawned workers. -/
def sumW (g : WPA → Int) (s : StateA) : Int :=
  ∑ k in Finset.range s.spawned, g (s.workers k)

/-- The part of the invariant indexed by main's program point: before the
start signal all workers spin and `threads` counts the spawns exactly; from
`aWait` on, `threads` dominates the number of unfinished workers, and so
does the stale value `r` held by any worker about to write `r - 1`. -/
def mainInvAt (pc : MPA) (s : StateA) : Prop :=
  match pc with
  | .aSpawn => s.start = false ∧ (∀ k, k < s.spawned → s.workers k = .aSpin)
      ∧ s.threads = (s.spawned : Int) ∧ (s.spawned : Int) ≤ s.num_threads
      ∧ s.output = none
  | .aSetStart => s.start = false ∧ (∀ k, k < s.spawned → s.workers k = .aSpin)
      ∧ s.threads = (s.spawned : Int) ∧ (s.spawned : Int) = s.num_threads
      ∧ s.output = none
  | .aWait => s.start = true ∧ (s.spawned : Int) = s.num_threads ∧ s.output = none
      ∧ sumW undoneA s ≤ s.threads
      ∧ (∀ k, k < s.spawned → ∀ r, s.workers k = .aDecWrite r → sumW undoneA s ≤ r)
  | .aMainDone => s.start = true ∧ (s.spawned : Int) = s.num_threads ∧ s.threads = 0
      ∧ (∀ k, k < s.spawned → s.workers k = .aDone)
      ∧ s.counter = s.num_loops * s.num_threads
      ∧ s.output = some (s.counter, s.num_loops * s.num_threads)

/-- The phase invariant at main's current program point. -/
def mainInvA (s : StateA) : Prop := mainInvAt s.mainPc s

/-- Inductive invariant of the first revision. -/
structure IA (s : StateA) : Prop where
  hL : 0 ≤ s.num_loops
  hN : 0 ≤ s.num_threads
  bounds : ∀ k, k < s.spawned → wBounds s.num_loops (s.workers k)
  ctr : s.counter = sumW (incsA s.num_loops) s
  lockCS : ∀ j, s.countLock = some j → j < s.spawned ∧ inCSA (s.workers j) = true
  csLock : ∀ k, k < s.spawned → inCSA (s.workers k) = true → s.countLock = some k
  regEq : ∀ k, k < s.spawned → ∀ j r, s.workers k = .aCsWrite j r → r = s.counter
  unsp : ∀ k, s.spawned ≤ k → s.workers k = .aSpin
  phase : mainInvA s

/-- Updating one worker below `spawned` to a pre-wait program point keeps
all spawned workers pre-wait. -/
theorem preWait_update {w : Nat → WPB} {sp : Nat}
    (h3 : ∀ k, k < sp → preWaitB (w k) = true) (i : Nat) {p : WPB}
    (hp : preWaitB p = true) :
    ∀ k, k < sp → preWaitB (Function.update w i p k) = true := by
  intro k hk
  rcases eq_or_ne k i with rfl | hne
  · rw [Function.update_same]; exact hp
  · rw [Function.update_noteq hne]; exact h3 k hk

/-- Updating a spawned worker leaves the unspawned placeholder values. -/
theorem unsp_update {w : Nat → WPB} {sp : Nat}
    (h4 : ∀ k, sp ≤ k → w k = .wAcqMain) {i : Nat} (hi : i < sp) (p : WPB) :
    ∀ k, sp ≤ k → Function.update w i p k = .wAcqMain := by
  intro k hk
  have hne : k ≠ i := by omega
  rw [Function.update_noteq hne]; exact h4 k hk

/-- One step of any thread preserves the invariant of the final revision. -/
theorem stepB_IB (a : TidB) (s : StateB) (h : IB s) : IB (stepB a s) := by
  obtain ⟨h1, h2, h3, h4, h5, h6, h7, h8⟩ := h
  cases a with
  | tMain =>
    show IB (stepMainB s)
    cases hpc : s.mainPc
    case mAcqTL =>
      cases htl : s.threadLock
      case none =>
        have hs : stepMainB s =
            { s with threadLock := some .tMain, mainPc := .mSpawn } := by
          unfold stepMainB; rw [hpc, htl]
        rw [hs]
        exact ⟨h1, h2, h3, h4, by dsimp only; rw [h5, hpc]; rfl, Or.inl rfl, h7,
          fun hN => ⟨by simp, (h8 hN).2⟩⟩
      case some =>
        have hs : stepMainB s = s := by unfold stepMainB; rw [hpc, htl]
        rw [hs]; exact ⟨h1, h2, h3, h4, h5, h6, h7, h8⟩
    case mSpawn =>
      by_cases hlt : s.threads < s.num_threads
      · have hs : stepMainB s =
            { s with spawned := s.spawned + 1, threads := s.threads + 1 } := by
          unfold stepMainB; rw [hpc, if_pos hlt]
        rw [hs]
        refine ⟨h1, ?_, ?_, ?_, h5, Or.inl (by dsimp only; rw [hpc]; rfl), ?_, h8⟩
        · dsimp only; push_cast; omega
        · intro k hk
          dsimp only at hk ⊢
          rcases Nat.lt_succ_iff_lt_or_eq.mp hk with hk' | hke
          · exact h3 k hk'
          · rw [hke, h4 s.spawned le_rfl]; rfl
        · intro k hk
          dsimp only at hk ⊢
          exact h4 k (by omega)
        · intro h0
          dsimp only at h0 ⊢
          omega
      · have hs : stepMainB s = { s with mainPc := .mSetStart } := by
          unfold stepMainB; rw [hpc, if_neg hlt]
        rw [hs]
        exact ⟨h1, h2, h3, h4, by dsimp only; rw [h5, hpc]; rfl,
          Or.inr (by dsimp only; omega), h7, fun hN => ⟨by simp, (h8 hN).2⟩⟩
    case mSetStart =>
      have hs : stepMainB s = { s with start := true, mainPc := .mRelTL } := by
        unfold stepMainB; rw [hpc]
      rw [hs]
      have h6' : s.num_threads ≤ s.threads := by
        rcases h6 with h6 | h6
        · rw [hpc] at h6; exact absurd h6 (by simp [inSpawnB])
        · exact h6
      exact ⟨h1, h2, h3, h4, rfl, Or.inr h6', h7,
        fun hN => ⟨by simp, (h8 hN).2⟩⟩
    case mRelTL =>
      have hs : stepMainB s = { s with threadLock := none, mainPc := .mSleep } := by
        unfold stepMainB; rw [hpc]
      rw [hs]
      have h6' : s.num_threads ≤ s.threads := by
        rcases h6 with h6 | h6
        · rw [hpc] at h6; exact absurd h6 (by simp [inSpawnB])
        · exact h6
      exact ⟨h1, h2, h3, h4, by dsimp only; rw [h5, hpc]; rfl, Or.inr h6', h7,
        fun hN => ⟨by simp, (h8 hN).2⟩⟩
    case mSleep =>
      have hs : stepMainB s = { s with mainPc := .mAcqMain } := by
        unfold stepMainB; rw [hpc]
      rw [hs]
      have h6' : s.num_threads ≤ s.threads := by
        rcases h6 with h6 | h6
        · rw [hpc] at h6; exact absurd h6 (by simp [inSpawnB])
        · exact h6
      exact ⟨h1, h2, h3, h4, by dsimp only; rw [h5, hpc]; rfl, Or.inr h6', h7,
        fun hN => ⟨by simp, (h8 hN).2⟩⟩
    case mAcqMain =>
      cases hml : s.mainLock
      case none =>
        have hs : stepMainB s =
            { s with mainLock := some .tMain, mainPc := .mWait } := by
          unfold stepMainB; rw [hpc, hml]
        rw [hs]
        have h6' : s.num_threads ≤ s.threads := by
          rcases h6 with h6 | h6
          · rw [hpc] at h6; exact absurd h6 (by simp [inSpawnB])
          · exact h6
        exact ⟨h1, h2, h3, h4, by dsimp only; rw [h5, hpc]; rfl, Or.inr h6', h7,
          fun hN => ⟨by simp, (h8 hN).2⟩⟩
      case some =>
        have hs : stepMainB s = s := by unfold stepMainB; rw [hpc, hml]
        rw [hs]; exact ⟨h1, h2, h3, h4, h5, h6, h7, h8⟩
    case mWait =>
      by_cases hgt : s.threads > 0
      · have hs : stepMainB s = s := by unfold stepMainB; rw [hpc, if_pos hgt]
        rw [hs]; exact ⟨h1, h2, h3, h4, h5, h6, h7, h8⟩
      · have hs : stepMainB s =
            { s with output := some (s.counter, s.num_loops * s.num_threads),
                     mainPc := .mDoneB } := by
          unfold stepMainB; rw [hpc, if_neg hgt]
        rw [hs]
        have h6' : s.num_threads ≤ s.threads := by
          rcases h6 with h6 | h6
          · rw [hpc] at h6; exact absurd h6 (by simp [inSpawnB])
          · exact h6
        exact ⟨h1, h2, h3, h4, by dsimp only; rw [h5, hpc]; rfl, Or.inr h6', h7,
          fun hN => by dsimp only at hN; exact absurd h6' (by omega)⟩
    case mDoneB =>
      have hs : stepMainB s = s := by unfold stepMainB; rw [hpc]
      rw [hs]; exact ⟨h1, h2, h3, h4, h5, h6, h7, h8⟩
  | tWk i =>
    show IB (stepWorkerB s i)
    by_cases hi : i < s.spawned
    · have hpw := h3 i hi
      cases hw : s.workers i
      -- wAcqMain
      · cases hml : s.mainLock
        · have hs : stepWorkerB s i =
              { s with mainLock := some (.tWk i),
                       workers := Function.update s.workers i .wFrCheck } := by
            unfold stepWorkerB; rw [if_pos hi, hw, hml]
          rw [hs]
          exact ⟨h1, h2, preWait_update h3 i rfl, unsp_update h4 hi _, h5, h6, h7, h8⟩
        · have hs : stepWorkerB s i = s := by
            unfold stepWorkerB; rw [if_pos hi, hw, hml]
          rw [hs]; exact ⟨h1, h2, h3, h4, h5, h6, h7, h8⟩
      -- wFrCheck
      · by_cases hfr : s.firstRun
        · have hs : stepWorkerB s i =
              { s with workers := Function.update s.workers i .wAcqTL } := by
            unfold stepWorkerB; rw [if_pos hi, hw, if_pos hfr]
          rw [hs]
          exact ⟨h1, h2, preWait_update h3 i rfl, unsp_update h4 hi _, h5, h6, h7, h8⟩
        · have hs : stepWorkerB s i =
              { s with workers := Function.update s.workers i .wSpin } := by
            unfold stepWorkerB; rw [if_pos hi, hw, if_neg hfr]
          rw [hs]
          exact ⟨h1, h2, preWait_update h3 i rfl, unsp_update h4 hi _, h5, h6, h7, h8⟩
      -- wAcqTL
      · cases htl : s.threadLock
        · have hs : stepWorkerB s i =
              { s with threadLock := some (.tWk i), firstRun := false,
                       tlDestroyed := true,
                       workers := Function.update s.workers i .wSpin } := by
            unfold stepWorkerB; rw [if_pos hi, hw, htl]
          rw [hs]
          exact ⟨h1, h2, preWait_update h3 i rfl, unsp_update h4 hi _, h5, h6, h7, h8⟩
        · have hs : stepWorkerB s i = s := by
            unfold stepWorkerB; rw [if_pos hi, hw, htl]
          rw [hs]; exact ⟨h1, h2, h3, h4, h5, h6, h7, h8⟩
      -- wSpin
      · by_cases hst : s.start
        · have hs : stepWorkerB s i =
              { s with mainLock := none, waitSet := s.waitSet ++ [i],
                       workers := Function.update s.workers i .wCondWait } := by
            unfold stepWorkerB; rw [if_pos hi, hw, if_pos hst]
          rw [hs]
          exact ⟨h1, h2, preWait_update h3 i rfl, unsp_update h4 hi _, h5, h6, h7, h8⟩
        · have hs : stepWorkerB s i = s := by
            unfold stepWorkerB; rw [if_pos hi, hw, if_neg hst]
          rw [hs]; exact ⟨h1, h2, h3, h4, h5, h6, h7, h8⟩
      -- wCondWait
      · have hs : stepWorkerB s i = s := by
          unfold stepWorkerB; rw [if_pos hi, hw]
        rw [hs]; exact ⟨h1, h2, h3, h4, h5, h6, h7, h8⟩
      -- all later program points contradict the pre-wait invariant
      all_goals rw [hw] at hpw; simp [preWaitB] at hpw
    · have hs : stepWorkerB s i = s := by unfold stepWorkerB; rw [if_neg hi]
      rw [hs]; exact ⟨h1, h2, h3, h4, h5, h6, h7, h8⟩

/-- The invariant holds initially. -/
theorem initB_IB (numTasks loopsPerWorker : Int) : IB (initB numTasks loopsPerWorker) := by
  refine ⟨rfl, rfl, ?_, fun _ _ => rfl, rfl, Or.inl rfl, fun h => by simpa [initB], ?_⟩
  · intro k hk; exact absurd hk (Nat.not_lt_zero k)
  · exact fun _ => ⟨by simp [initB], rfl⟩

/-- The invariant holds in every reachable state of the final revision. -/
theorem execB_IB (numTasks loopsPerWorker : Int) (tr : List TidB) :
    IB (execB tr (initB numTasks loopsPerWorker)) := by
  suffices h : ∀ s, IB s → IB (execB tr s) from
    h _ (initB_IB numTasks loopsPerWorker)
  induction tr with
  | nil => exact fun s hs => hs
  | cons a tr ih =>
      intro s hs
      have : execB (a :: tr) s = execB tr (stepB a s) := rfl
      rw [this]
      exact ih _ (stepB_IB a s hs)

/-- Effect of updating one worker on a ghost sum. -/
theorem sum_update_ghost (g : WPA → Int) (w : Nat → WPA) {n i : Nat}
    (hi : i < n) (p : WPA) :
    ∑ k in Finset.range n, g (Function.update w i p k)
      = (∑ k in Finset.range n, g (w k)) + g p - g (w i) := by
  have hmem : i ∈ Finset.range n := Finset.mem_range.mpr hi
  have h1 : ∀ k, g (Function.update w i p k)
      = Function.update (fun m => g (w m)) i (g p) k := by
    intro k
    rcases eq_or_ne k i with rfl | hne
    · rw [Function.update_same, Function.update_same]
    · rw [Function.update_noteq hne, Function.update_noteq hne]
  rw [Finset.sum_congr rfl fun k _ => h1 k, Finset.sum_update_of_mem hmem]
  have h2 := Finset.sum_eq_sum_diff_singleton_add hmem fun m => g (w m)
  omega

/-- `stepA` never changes `num_threads` or `num_loops`. -/
theorem stepA_fields (a : SchedA) (s : StateA) :
    (stepA a s).num_threads = s.num_threads ∧ (stepA a s).num_loops = s.num_loops := by
  cases a <;> unfold stepA stepMainA stepWorkerA <;>
    repeat' first
      | split
      | exact ⟨rfl, rfl⟩

/-- `execA` never changes `num_threads` or `num_loops`. -/
theorem execA_fields (tr : List SchedA) (s : StateA) :
    (execA tr s).num_threads = s.num_threads ∧ (execA tr s).num_loops = s.num_loops := by
  induction tr generalizing s with
  | nil => exact ⟨rfl, rfl⟩
  | cons a tr ih =>
      have h1 := ih (stepA a s)
      have h2 := stepA_fields a s
      exact ⟨h1.1.trans h2.1, h1.2.trans h2.2⟩

/-- `stepB` never changes `num_threads` or `num_loops`. -/
theorem stepB_fields (a : TidB) (s : StateB) :
    (stepB a s).num_threads = s.num_threads ∧ (stepB a s).num_loops = s.num_loops := by
  cases a <;> unfold stepB stepMainB stepWorkerB <;>
    repeat' first
      | split
      | exact ⟨rfl, rfl⟩

/-- `execB` never changes `num_threads` or `num_loops`. -/
theorem execB_fields (tr : List TidB) (s : StateB) :
    (execB tr s).num_threads = s.num_threads ∧ (execB tr s).num_loops = s.num_loops := by
  induction tr generalizing s with
  | nil => exact ⟨rfl, rfl⟩
  | cons a tr ih =>
      have h1 := ih (stepB a s)
      have h2 := stepB_fields a s
      exact ⟨h1.1.trans h2.1, h1.2.trans h2.2⟩

/-- A worker strictly between the start spin and its final decrement write
can only exist while main is in its wait loop. -/
theorem midPhase_aWait (s : StateA) (h : IA s) {i : Nat} (hi : i < s.spawned)
    (h1 : s.workers i ≠ .aSpin) (h2 : s.workers i ≠ .aDone) :
    s.mainPc = .aWait := by
  have hphase := h.phase
  unfold mainInvA at hphase
  cases hpcc : s.mainPc
  · rw [hpcc] at hphase; exact absurd (hphase.2.1 i hi) h1
  · rw [hpcc] at hphase; exact absurd (hphase.2.1 i hi) h1
  · rfl
  · rw [hpcc] at hphase; exact absurd (hphase.2.2.2.1 i hi) h2

/-- Bulk preservation lemma for worker transitions during main's wait loop
that only move the worker's own program point: the ghost quantities are
unchanged, so every invariant field carries over. -/
theorem IA_update_plain (s : StateA) (h : IA s) (i : Nat) (hi : i < s.spawned)
    (hpc : s.mainPc = .aWait) (q : WPA)
    (hb : wBounds s.num_loops q)
    (hincs : incsA s.num_loops q = incsA s.num_loops (s.workers i))
    (hund : undoneA q = undoneA (s.workers i))
    (hcs : inCSA q = inCSA (s.workers i))
    (hreg : ∀ j r, q = .aCsWrite j r → r = s.counter)
    (hdw : ∀ r, q = .aDecWrite r → sumW undoneA s ≤ r) :
    IA { s with workers := Function.update s.workers i q } := by
  have hsum : ∀ g : WPA → Int, g q = g (s.workers i) →
      (∑ k in Finset.range s.spawned, g (Function.update s.workers i q k))
        = sumW g s := by
    intro g hg
    rw [sum_update_ghost g s.workers hi q, hg]
    unfold sumW; omega
  refine ⟨h.hL, h.hN, ?_, ?_, ?_, ?_, ?_, ?_, ?_⟩
  · intro k hk
    dsimp only at hk ⊢
    rcases eq_or_ne k i with rfl | hne
    · rw [Function.update_same]; exact hb
    · rw [Function.update_noteq hne]; exact h.bounds k hk
  · show s.counter = _
    have := hsum (incsA s.num_loops) hincs
    rw [show sumW (incsA s.num_loops) { s with workers := Function.update s.workers i q }
        = ∑ k in Finset.range s.spawned, incsA s.num_loops (Function.update s.workers i q k)
      from rfl, this]
    exact h.ctr
  · intro j hj
    obtain ⟨hjlt, hjcs⟩ := h.lockCS j hj
    refine ⟨hjlt, ?_⟩
    show inCSA (Function.update s.workers i q j) = true
    rcases eq_or_ne j i with rfl | hne
    · rw [Function.update_same, hcs]; exact hjcs
    · rw [Function.update_noteq hne]; exact hjcs
  · intro k hk hkcs
    dsimp only at hk hkcs ⊢
    have hkcs' : inCSA (s.workers k) = true := by
      rcases eq_or_ne k i with rfl | hne
      · rw [Function.update_same] at hkcs; rw [← hcs]; exact hkcs
      · rw [Function.update_noteq hne] at hkcs; exact hkcs
    exact h.csLock k hk hkcs'
  · intro k hk j r hkw
    dsimp only at hk hkw ⊢
    rcases eq_or_ne k i with rfl | hne
    · rw [Function.update_same] at hkw
      exact hreg j r hkw
    · rw [Function.update_noteq hne] at hkw
      exact h.regEq k hk j r hkw
  · intro k hk
    dsimp only at hk ⊢
    have hne : k ≠ i := by omega
    rw [Function.update_noteq hne]; exact h.unsp k hk
  · have hphase := h.phase
    unfold mainInvA at hphase ⊢
    dsimp only
    rw [hpc] at hphase ⊢
    obtain ⟨hst, hspN, hout, hsumle, hdwAll⟩ := hphase
    refine ⟨hst, hspN, hout, ?_, ?_⟩
    · show (∑ k in Finset.range s.spawned, undoneA (Function.update s.workers i q k))
          ≤ s.threads
      rw [hsum undoneA hund]; exact hsumle
    · intro k hk r hkw
      dsimp only at hk hkw
      show (∑ m in Finset.range s.spawned, undoneA (Function.update s.workers i q m)) ≤ r
      rw [hsum undoneA hund]
      rcases eq_or_ne k i with rfl | hne
      · rw [Function.update_same] at hkw; exact hdw r hkw
      · rw [Function.update_noteq hne] at hkw; exact hdwAll k hk r hkw

/-- A worker with no pending decrement has finished. -/
theorem undoneA_eq_zero {w : WPA} (h0 : undoneA w = 0) : w = .aDone := by
  cases w <;> simp_all [undoneA]

/-- One step of main preserves the invariant of the first revision. -/
theorem stepMainA_IA (s : StateA) (h : IA s) : IA (stepMainA s) := by
  have hphase := h.phase
  unfold mainInvA at hphase
  cases hpc : s.mainPc
  -- aSpawn
  · rw [hpc] at hphase
    obtain ⟨hstf, hallspin, hthr, hsple, hout⟩ := hphase
    by_cases hlt : s.threads < s.num_threads
    · have hs : stepMainA s =
          { s with spawned := s.spawned + 1, threads := s.threads + 1 } := by
        unfold stepMainA; rw [hpc, if_pos hlt]
      rw [hs]
      refine ⟨h.hL, h.hN, ?_, ?_, ?_, ?_, ?_, ?_, ?_⟩
      · intro k hk
        dsimp only at hk ⊢
        rcases (by omega : k < s.spawned ∨ k = s.spawned) with hk' | hke
        · exact h.bounds k hk'
        · rw [hke, h.unsp s.spawned le_rfl]; trivial
      · show s.counter
            = ∑ k in Finset.range (s.spawned + 1), incsA s.num_loops (s.workers k)
        rw [Finset.sum_range_succ, h.unsp s.spawned le_rfl]
        have h0 : incsA s.num_loops .aSpin = 0 := rfl
        rw [h0, add_zero]
        exact h.ctr
      · intro j hj
        obtain ⟨hjlt, hjcs⟩ := h.lockCS j hj
        exact ⟨Nat.lt_succ_of_lt hjlt, hjcs⟩
      · intro k hk hkcs
        dsimp only at hk hkcs ⊢
        rcases (by omega : k < s.spawned ∨ k = s.spawned) with hk' | hke
        · exact h.csLock k hk' hkcs
        · rw [hke, h.unsp s.spawned le_rfl] at hkcs
          simp [inCSA] at hkcs
      · intro k hk j r hkw
        dsimp only at hk hkw ⊢
        rcases (by omega : k < s.spawned ∨ k = s.spawned) with hk' | hke
        · exact h.regEq k hk' j r hkw
        · rw [hke, h.unsp s.spawned le_rfl] at hkw
          simp at hkw
      · intro k hk
        dsimp only at hk ⊢
        exact h.unsp k (by omega)
      · unfold mainInvA
        dsimp only
        rw [hpc]
        refine ⟨hstf, ?_, by dsimp only; omega, by dsimp only; omega, hout⟩
        intro k hk
        dsimp only at hk
        rcases (by omega : k < s.spawned ∨ k = s.spawned) with hk' | hke
        · exact hallspin k hk'
        · rw [hke]; exact h.unsp s.spawned le_rfl
    · have hs : stepMainA s = { s with mainPc := .aSetStart } := by
        unfold stepMainA; rw [hpc, if_neg hlt]
      rw [hs]
      refine ⟨h.hL, h.hN, h.bounds, h.ctr, h.lockCS, h.csLock, h.regEq, h.unsp, ?_⟩
      unfold mainInvA
      dsimp only
      exact ⟨hstf, hallspin, hthr, by dsimp only; omega, hout⟩
  -- aSetStart
  · rw [hpc] at hphase
    obtain ⟨hstf, hallspin, hthr, hspe, hout⟩ := hphase
    have hs : stepMainA s = { s with start := true, mainPc := .aWait } := by
      unfold stepMainA; rw [hpc]
    rw [hs]
    refine ⟨h.hL, h.hN, h.bounds, h.ctr, h.lockCS, h.csLock, h.regEq, h.unsp, ?_⟩
    unfold mainInvA
    dsimp only
    have hone : sumW undoneA s = (s.spawned : Int) := by
      unfold sumW
      rw [Finset.sum_congr rfl fun k hk => by
        rw [hallspin k (Finset.mem_range.mp hk)]]
      rw [Finset.sum_const, Finset.card_range]
      simp [undoneA]
    refine ⟨rfl, hspe, hout, ?_, ?_⟩
    · show sumW undoneA { s with start := true, mainPc := .aWait } ≤ s.threads
      have heq : sumW undoneA { s with start := true, mainPc := .aWait }
          = sumW undoneA s := rfl
      rw [heq, hone]; omega
    · intro k hk r hkw
      dsimp only at hk hkw
      rw [hallspin k hk] at hkw
      simp at hkw
  -- aWait
  · rw [hpc] at hphase
    obtain ⟨hstt, hspe, hout, hsumle, hdwAll⟩ := hphase
    by_cases hgt : s.threads > 0
    · have hs : stepMainA s = s := by unfold stepMainA; rw [hpc, if_pos hgt]
      rw [hs]; exact h
    · have hs : stepMainA s =
          { s with output := some (s.counter, s.num_loops * s.num_threads),
                   mainPc := .aMainDone } := by
        unfold stepMainA; rw [hpc, if_neg hgt]
      rw [hs]
      have hfn : ∀ m ∈ Finset.range s.spawned, (0 : Int) ≤ undoneA (s.workers m) :=
        fun m _ => by cases s.workers m <;> simp [undoneA]
      have hnn : (0 : Int) ≤ sumW undoneA s := by
        unfold sumW; exact Finset.sum_nonneg hfn
      have hzero : sumW undoneA s = 0 := by omega
      have hdone : ∀ k, k < s.spawned → s.workers k = .aDone := by
        intro k hk
        have hz := (Finset.sum_eq_zero_iff_of_nonneg hfn).mp
          (by unfold sumW at hzero; exact hzero)
        exact undoneA_eq_zero (hz k (Finset.mem_range.mpr hk))
      have hthr0 : s.threads = 0 := by omega
      have hcnt : s.counter = s.num_loops * s.num_threads := by
        have hsum : sumW (incsA s.num_loops) s = (s.spawned : Int) * s.num_loops := by
          unfold sumW
          rw [Finset.sum_congr rfl fun k hk => by
            rw [hdone k (Finset.mem_range.mp hk)]]
          rw [Finset.sum_const, Finset.card_range]
          have hd : incsA s.num_loops .aDone = s.num_loops := rfl
          rw [hd]
          exact nsmul_eq_mul _ _
        rw [h.ctr, hsum, hspe]; ring
      refine ⟨h.hL, h.hN, h.bounds, h.ctr, h.lockCS, h.csLock, h.regEq, h.unsp, ?_⟩
      unfold mainInvA
      dsimp only
      exact ⟨hstt, hspe, hthr0, hdone, hcnt, by rw [hcnt]⟩
  -- aMainDone
  · have hs : stepMainA s = s := by unfold stepMainA; rw [hpc]
    rw [hs]; exact h

/-- One step of any worker preserves the invariant of the first revision. -/
theorem stepWorkerA_IA (s : StateA) (i : Nat) (h : IA s) : IA (stepWorkerA s i) := by
  by_cases hi : i < s.spawned
  · cases hw : s.workers i
    -- aSpin
    · by_cases hst : s.start = true
      · have hpc : s.mainPc = .aWait := by
          have hphase := h.phase
          unfold mainInvA at hphase
          cases hpcc : s.mainPc
          · rw [hpcc] at hphase; rw [hphase.1] at hst; simp at hst
          · rw [hpcc] at hphase; rw [hphase.1] at hst; simp at hst
          · rfl
          · rw [hpcc] at hphase
            have hd := hphase.2.2.2.1 i hi
            rw [hw] at hd; simp at hd
        have hs : stepWorkerA s i =
            { s with workers := Function.update s.workers i (.aLoop 0) } := by
          unfold stepWorkerA; rw [if_pos hi, hw, if_pos hst]
        rw [hs]
        exact IA_update_plain s h i hi hpc (.aLoop 0) ⟨le_rfl, h.hL⟩
          (by simp [hw, incsA]) (by simp [hw, undoneA]) (by simp [hw, inCSA])
          (fun j r hq => by simp at hq) (fun r hq => by simp at hq)
      · have hs : stepWorkerA s i = s := by
          unfold stepWorkerA; rw [if_pos hi, hw, if_neg hst]
        rw [hs]; exact h
    -- aLoop j
    · rename_i j
      have hpc := midPhase_aWait s h hi (by rw [hw]; simp) (by rw [hw]; simp)
      have hb := h.bounds i hi
      rw [hw] at hb
      simp only [wBounds] at hb
      by_cases hjlt : j < s.num_loops
      · have hs : stepWorkerA s i =
            { s with workers := Function.update s.workers i (.aAcqCount j) } := by
          unfold stepWorkerA; rw [if_pos hi, hw]; dsimp only; rw [if_pos hjlt]
        rw [hs]
        exact IA_update_plain s h i hi hpc (.aAcqCount j) ⟨hb.1, hjlt⟩
          (by simp [hw, incsA]) (by simp [hw, undoneA]) (by simp [hw, inCSA])
          (fun j' r hq => by simp at hq) (fun r hq => by simp at hq)
      · have hs : stepWorkerA s i =
            { s with workers := Function.update s.workers i .aDecRead } := by
          unfold stepWorkerA; rw [if_pos hi, hw]; dsimp only; rw [if_neg hjlt]
        rw [hs]
        exact IA_update_plain s h i hi hpc .aDecRead True.intro
          (by simp [hw, incsA]; omega) (by simp [hw, undoneA]) (by simp [hw, inCSA])
          (fun j' r hq => by simp at hq) (fun r hq => by simp at hq)
    -- aAcqCount j
    · rename_i j
      cases hlock : s.countLock
      · have hpc := midPhase_aWait s h hi (by rw [hw]; simp) (by rw [hw]; simp)
        have hb := h.bounds i hi
        rw [hw] at hb
        simp only [wBounds] at hb
        have hs : stepWorkerA s i =
            { s with countLock := some i,
                     workers := Function.update s.workers i (.aCsRead j) } := by
          unfold stepWorkerA; rw [if_pos hi, hw, hlock]
        rw [hs]
        have hsum : ∀ g : WPA → Int, g (.aCsRead j) = g (.aAcqCount j) →
            (∑ k in Finset.range s.spawned,
                g (Function.update s.workers i (.aCsRead j) k))
              = ∑ k in Finset.range s.spawned, g (s.workers k) := by
          intro g hg
          rw [sum_update_ghost g s.workers hi _, hw, hg]
          omega
        refine ⟨h.hL, h.hN, ?_, ?_, ?_, ?_, ?_, ?_, ?_⟩
        · intro k hk
          dsimp only at hk ⊢
          rcases eq_or_ne k i with rfl | hne
          · rw [Function.update_same]; exact ⟨hb.1, hb.2⟩
          · rw [Function.update_noteq hne]; exact h.bounds k hk
        · dsimp only [sumW]
          rw [hsum (incsA s.num_loops) (by simp [incsA])]
          exact h.ctr
        · intro jj hjj
          dsimp only at hjj ⊢
          injection hjj with hji
          refine ⟨?_, ?_⟩
          · rw [← hji]; exact hi
          · rw [← hji, Function.update_same]; rfl
        · intro k hk hkcs
          dsimp only at hk hkcs ⊢
          rcases eq_or_ne k i with rfl | hne
          · rfl
          · rw [Function.update_noteq hne] at hkcs
            have hclk := h.csLock k hk hkcs
            rw [hlock] at hclk
            simp at hclk
        · intro k hk j' r hkw
          dsimp only at hk hkw ⊢
          rcases eq_or_ne k i with rfl | hne
          · rw [Function.update_same] at hkw; simp at hkw
          · rw [Function.update_noteq hne] at hkw
            exact h.regEq k hk j' r hkw
        · intro k hk
          dsimp only at hk ⊢
          rw [Function.update_noteq (by omega)]
          exact h.unsp k hk
        · have hphase := h.phase
          unfold mainInvA at hphase ⊢
          dsimp only
          rw [hpc] at hphase ⊢
          obtain ⟨hstt, hspe, hout, hsumle, hdwAll⟩ := hphase
          unfold sumW at hsumle hdwAll
          refine ⟨hstt, hspe, hout, ?_, ?_⟩
          · dsimp only [sumW]
            rw [hsum undoneA (by simp [undoneA])]
            exact hsumle
          · intro k hk r hkw
            dsimp only [sumW] at hk hkw ⊢
            rw [hsum undoneA (by simp [undoneA])]
            rcases eq_or_ne k i with rfl | hne
            · rw [Function.update_same] at hkw; simp at hkw
            · rw [Function.update_noteq hne] at hkw
              exact hdwAll k hk r hkw
      · have hs : stepWorkerA s i = s := by
          unfold stepWorkerA; rw [if_pos hi, hw, hlock]
        rw [hs]; exact h
    -- aCsRead j
    · rename_i j
      have hpc := midPhase_aWait s h hi (by rw [hw]; simp) (by rw [hw]; simp)
      have hb := h.bounds i hi
      rw [hw] at hb
      simp only [wBounds] at hb
      have hs : stepWorkerA s i =
          { s with workers := Function.update s.workers i (.aCsWrite j s.counter) } := by
        unfold stepWorkerA; rw [if_pos hi, hw]
      rw [hs]
      exact IA_update_plain s h i hi hpc (.aCsWrite j s.counter) ⟨hb.1, hb.2⟩
        (by simp [hw, incsA]) (by simp [hw, undoneA]) (by simp [hw, inCSA])
        (fun j' r hq => by injection hq with e1 e2; exact e2.symm)
        (fun r hq => by simp at hq)
    -- aCsWrite j r
    · rename_i j r
      have hpc := midPhase_aWait s h hi (by rw [hw]; simp) (by rw [hw]; simp)
      have hb := h.bounds i hi
      rw [hw] at hb
      simp only [wBounds] at hb
      have hreg := h.regEq i hi j r hw
      have hlk : s.countLock = some i := h.csLock i hi (by rw [hw]; rfl)
      have hs : stepWorkerA s i =
          { s with counter := r + 1,
                   workers := Function.update s.workers i (.aRelCount j) } := by
        unfold stepWorkerA; rw [if_pos hi, hw]
      rw [hs]
      have hsum : ∀ g : WPA → Int, g (.aRelCount j) = g (.aCsWrite j r) →
          (∑ k in Finset.range s.spawned,
              g (Function.update s.workers i (.aRelCount j) k))
            = ∑ k in Finset.range s.spawned, g (s.workers k) := by
        intro g hg
        rw [sum_update_ghost g s.workers hi _, hw, hg]
        omega
      refine ⟨h.hL, h.hN, ?_, ?_, ?_, ?_, ?_, ?_, ?_⟩
      · intro k hk
        dsimp only at hk ⊢
        rcases eq_or_ne k i with rfl | hne
        · rw [Function.update_same]; exact ⟨hb.1, hb.2⟩
        · rw [Function.update_noteq hne]; exact h.bounds k hk
      · dsimp only [sumW]
        rw [sum_update_ghost _ s.workers hi _, hw]
        have e1 : incsA s.num_loops (.aRelCount j) = j + 1 := rfl
        have e2 : incsA s.num_loops (.aCsWrite j r) = j := rfl
        rw [e1, e2, hreg]
        have hc := h.ctr
        unfold sumW at hc
        omega
      · intro jj hjj
        dsimp only at hjj ⊢
        obtain ⟨hjlt, hjcs⟩ := h.lockCS jj hjj
        refine ⟨hjlt, ?_⟩
        rcases eq_or_ne jj i with rfl | hne
        · rw [Function.update_same]; rfl
        · rw [Function.update_noteq hne]; exact hjcs
      · intro k hk hkcs
        dsimp only at hk hkcs ⊢
        rcases eq_or_ne k i with rfl | hne
        · exact hlk
        · rw [Function.update_noteq hne] at hkcs
          exact h.csLock k hk hkcs
      · intro k hk j' r' hkw
        dsimp only at hk hkw ⊢
        rcases eq_or_ne k i with rfl | hne
        · rw [Function.update_same] at hkw; simp at hkw
        · rw [Function.update_noteq hne] at hkw
          have hk2 := h.csLock k hk (by rw [hkw]; rfl)
          rw [hlk] at hk2
          injection hk2 with he
          exact absurd he.symm hne
      · intro k hk
        dsimp only at hk ⊢
        rw [Function.update_noteq (by omega)]
        exact h.unsp k hk
      · have hphase := h.phase
        unfold mainInvA at hphase ⊢
        dsimp only
        rw [hpc] at hphase ⊢
        obtain ⟨hstt, hspe, hout, hsumle, hdwAll⟩ := hphase
        unfold sumW at hsumle hdwAll
        refine ⟨hstt, hspe, hout, ?_, ?_⟩
        · dsimp only [sumW]
          rw [hsum undoneA (by simp [undoneA])]
          exact hsumle
        · intro k hk r' hkw
          dsimp only [sumW] at hk hkw ⊢
          rw [hsum undoneA (by simp [undoneA])]
          rcases eq_or_ne k i with rfl | hne
          · rw [Function.update_same] at hkw; simp at hkw
          · rw [Function.update_noteq hne] at hkw
            exact hdwAll k hk r' hkw
    -- aRelCount j
    · rename_i j
      have hpc := midPhase_aWait s h hi (by rw [hw]; simp) (by rw [hw]; simp)
      have hb := h.bounds i hi
      rw [hw] at hb
      simp only [wBounds] at hb
      have hlk : s.countLock = some i := h.csLock i hi (by rw [hw]; rfl)
      have hs : stepWorkerA s i =
          { s with countLock := none,
                   workers := Function.update s.workers i (.aLoop (j + 1)) } := by
        unfold stepWorkerA; rw [if_pos hi, hw]
      rw [hs]
      have hsum : ∀ g : WPA → Int, g (.aLoop (j + 1)) = g (.aRelCount j) →
          (∑ k in Finset.range s.spawned,
              g (Function.update s.workers i (.aLoop (j + 1)) k))
            = ∑ k in Finset.range s.spawned, g (s.workers k) := by
        intro g hg
        rw [sum_update_ghost g s.workers hi _, hw, hg]
        omega
      refine ⟨h.hL, h.hN, ?_, ?_, ?_, ?_, ?_, ?_, ?_⟩
      · intro k hk
        dsimp only at hk ⊢
        rcases eq_or_ne k i with rfl | hne
        · rw [Function.update_same]; exact ⟨by omega, by omega⟩
        · rw [Function.update_noteq hne]; exact h.bounds k hk
      · dsimp only [sumW]
        rw [hsum (incsA s.num_loops) (by simp [incsA])]
        exact h.ctr
      · intro jj hjj
        dsimp only at hjj ⊢
        simp at hjj
      · intro k hk hkcs
        dsimp only at hk hkcs ⊢
        rcases eq_or_ne k i with rfl | hne
        · rw [Function.update_same] at hkcs; simp [inCSA] at hkcs
        · rw [Function.update_noteq hne] at hkcs
          have hclk := h.csLock k hk hkcs
          rw [hlk] at hclk
          injection hclk with he
          exact absurd he.symm hne
      · intro k hk j' r' hkw
        dsimp only at hk hkw ⊢
        rcases eq_or_ne k i with rfl | hne
        · rw [Function.update_same] at hkw; simp at hkw
        · rw [Function.update_noteq hne] at hkw
          exact h.regEq k hk j' r' hkw
      · intro k hk
        dsimp only at hk ⊢
        rw [Function.update_noteq (by omega)]
        exact h.unsp k hk
      · have hphase := h.phase
        unfold mainInvA at hphase ⊢
        dsimp only
        rw [hpc] at hphase ⊢
        obtain ⟨hstt, hspe, hout, hsumle, hdwAll⟩ := hphase
        unfold sumW at hsumle hdwAll
        refine ⟨hstt, hspe, hout, ?_, ?_⟩
        · dsimp only [sumW]
          rw [hsum undoneA (by simp [undoneA])]
          exact hsumle
        · intro k hk r' hkw
          dsimp only [sumW] at hk hkw ⊢
          rw [hsum undoneA (by simp [undoneA])]
          rcases eq_or_ne k i with rfl | hne
          · rw [Function.update_same] at hkw; simp at hkw
          · rw [Function.update_noteq hne] at hkw
            exact hdwAll k hk r' hkw
    -- aDecRead
    · have hpc := midPhase_aWait s h hi (by rw [hw]; simp) (by rw [hw]; simp)
      have hphase := h.phase
      unfold mainInvA at hphase
      rw [hpc] at hphase
      obtain ⟨hstt, hspe, hout, hsumle, hdwAll⟩ := hphase
      have hs : stepWorkerA s i =
          { s with workers := Function.update s.workers i (.aDecWrite s.threads) } := by
        unfold stepWorkerA; rw [if_pos hi, hw]
      rw [hs]
      exact IA_update_plain s h i hi hpc (.aDecWrite s.threads) True.intro
        (by simp [hw, incsA]) (by simp [hw, undoneA]) (by simp [hw, inCSA])
        (fun j' r hq => by simp at hq)
        (fun r hq => by injection hq with e; rw [← e]; exact hsumle)
    -- aDecWrite r
    · rename_i r
      have hpc := midPhase_aWait s h hi (by rw [hw]; simp) (by rw [hw]; simp)
      have hphase := h.phase
      unfold mainInvA at hphase
      rw [hpc] at hphase
      obtain ⟨hstt, hspe, hout, hsumle, hdwAll⟩ := hphase
      have hri : sumW undoneA s ≤ r := hdwAll i hi r hw
      have hs : stepWorkerA s i =
          { s with threads := r - 1,
                   workers := Function.update s.workers i .aDone } := by
        unfold stepWorkerA; rw [if_pos hi, hw]
      rw [hs]
      have hsumU : (∑ k in Finset.range s.spawned,
          undoneA (Function.update s.workers i .aDone k))
            = (∑ k in Finset.range s.spawned, undoneA (s.workers k)) - 1 := by
        rw [sum_update_ghost _ s.workers hi _, hw]
        have e1 : undoneA .aDone = 0 := rfl
        have e2 : undoneA (.aDecWrite r) = 1 := rfl
        rw [e1, e2]
        omega
      have hsumI : (∑ k in Finset.range s.spawned,
          incsA s.num_loops (Function.update s.workers i .aDone k))
            = ∑ k in Finset.range s.spawned, incsA s.num_loops (s.workers k) := by
        rw [sum_update_ghost _ s.workers hi _, hw]
        have e1 : incsA s.num_loops .aDone = s.num_loops := rfl
        have e2 : incsA s.num_loops (.aDecWrite r) = s.num_loops := rfl
        rw [e1, e2]
        omega
      unfold sumW at hsumle hdwAll hri
      refine ⟨h.hL, h.hN, ?_, ?_, ?_, ?_, ?_, ?_, ?_⟩
      · intro k hk
        dsimp only at hk ⊢
        rcases eq_or_ne k i with rfl | hne
        · rw [Function.update_same]; exact True.intro
        · rw [Function.update_noteq hne]; exact h.bounds k hk
      · dsimp only [sumW]
        rw [hsumI]
        exact h.ctr
      · intro jj hjj
        dsimp only at hjj ⊢
        obtain ⟨hjlt, hjcs⟩ := h.lockCS jj hjj
        refine ⟨hjlt, ?_⟩
        rcases eq_or_ne jj i with rfl | hne
        · rw [hw] at hjcs; simp [inCSA] at hjcs
        · rw [Function.update_noteq hne]; exact hjcs
      · intro k hk hkcs
        dsimp only at hk hkcs ⊢
        rcases eq_or_ne k i with rfl | hne
        · rw [Function.update_same] at hkcs; simp [inCSA] at hkcs
        · rw [Function.update_noteq hne] at hkcs
          exact h.csLock k hk hkcs
      · intro k hk j' r' hkw
        dsimp only at hk hkw ⊢
        rcases eq_or_ne k i with rfl | hne
        · rw [Function.update_same] at hkw; simp at hkw
        · rw [Function.update_noteq hne] at hkw
          exact h.regEq k hk j' r' hkw
      · intro k hk
        dsimp only at hk ⊢
        rw [Function.update_noteq (by omega)]
        exact h.unsp k hk
      · unfold mainInvA
        dsimp only
        rw [hpc]
        refine ⟨hstt, hspe, hout, ?_, ?_⟩
        · dsimp only [sumW]
          rw [hsumU]
          omega
        · intro k hk r' hkw
          dsimp only [sumW] at hk hkw ⊢
          rw [hsumU]
          rcases eq_or_ne k i with rfl | hne
          · rw [Function.update_same] at hkw; simp at hkw
          · rw [Function.update_noteq hne] at hkw
            have hdw' := hdwAll k hk r' hkw
            omega
    -- aDone
    · have hs : stepWorkerA s i = s := by
        unfold stepWorkerA; rw [if_pos hi, hw]
      rw [hs]; exact h
  · have hs : stepWorkerA s i = s := by unfold stepWorkerA; rw [if_neg hi]
    rw [hs]; exact h

/-- One interleaving step preserves the invariant of the first revision. -/
theorem stepA_IA (a : SchedA) (s : StateA) (h : IA s) : IA (stepA a s) := by
  cases a with
  | mn => exact stepMainA_IA s h
  | wk i => exact stepWorkerA_IA s i h

/-- The invariant holds initially (for nonnegative parameters). -/
theorem initA_IA (numTasks loopsPerWorker : Int)
    (hN : 0 ≤ numTasks) (hL : 0 ≤ loopsPerWorker) :
    IA (initA numTasks loopsPerWorker) := by
  refine ⟨hL, hN, ?_, ?_, ?_, ?_, ?_, fun _ _ => rfl, ?_⟩
  · intro k hk; exact absurd hk (Nat.not_lt_zero k)
  · show (0 : Int) = ∑ k in Finset.range 0, incsA loopsPerWorker (.aSpin)
    simp
  · intro j hj; simp [initA] at hj
  · intro k hk; exact absurd hk (Nat.not_lt_zero k)
  · intro k hk; exact absurd hk (Nat.not_lt_zero k)
  · exact ⟨rfl, fun k hk => absurd hk (Nat.not_lt_zero k), rfl, by simpa [initA], rfl⟩

/-- The invariant holds in every reachable state of the first revision. -/
theorem execA_IA (numTasks loopsPerWorker : Int)
    (hN : 0 ≤ numTasks) (hL : 0 ≤ loopsPerWorker) (tr : List SchedA) :
    IA (execA tr (initA numTasks loopsPerWorker)) := by
  suffices hsuf : ∀ s, IA s → IA (execA tr s) from
    hsuf _ (initA_IA numTasks loopsPerWorker hN hL)
  induction tr with
  | nil => exact fun s hs => hs
  | cons a tr ih =>
      intro s hs
      have he : execA (a :: tr) s = execA tr (stepA a s) := rfl
      rw [he]
      exact ih _ (stepA_IA a s hs)

/-- Main never writes `counter` (first revision). -/
theorem stepMainA_counter (s : StateA) : (stepMainA s).counter = s.counter := by
  unfold stepMainA
  repeat' first
    | split
    | rfl

/-- In a state satisfying the invariant, a step that changes `counter` is a
step of a worker that holds `countLock`. -/
theorem stepA_counter_change (a : SchedA) (s : StateA) (h : IA s)
    (hne : (stepA a s).counter ≠ s.counter) :
    ∃ i, a = .wk i ∧ s.countLock = some i := by
  cases a with
  | mn => exact absurd (stepMainA_counter s) hne
  | wk i =>
      refine ⟨i, rfl, ?_⟩
      by_cases hi : i < s.spawned
      · cases hw : s.workers i
        · exfalso; apply hne
          show (stepWorkerA s i).counter = s.counter
          unfold stepWorkerA; rw [if_pos hi, hw]
          all_goals first
            | rfl
            | (dsimp only
               all_goals repeat' first
                 | split
                 | rfl)
        · exfalso; apply hne
          show (stepWorkerA s i).counter = s.counter
          unfold stepWorkerA; rw [if_pos hi, hw]
          all_goals first
            | rfl
            | (dsimp only
               all_goals repeat' first
                 | split
                 | rfl)
        · exfalso; apply hne
          show (stepWorkerA s i).counter = s.counter
          unfold stepWorkerA; rw [if_pos hi, hw]
          all_goals first
            | rfl
            | (dsimp only
               all_goals repeat' first
                 | split
                 | rfl)
        · exfalso; apply hne
          show (stepWorkerA s i).counter = s.counter
          unfold stepWorkerA; rw [if_pos hi, hw]
          all_goals first
            | rfl
            | (dsimp only
               all_goals repeat' first
                 | split
                 | rfl)
        · exact h.csLock i hi (by rw [hw]; rfl)
        · exfalso; apply hne
          show (stepWorkerA s i).counter = s.counter
          unfold stepWorkerA; rw [if_pos hi, hw]
          all_goals first
            | rfl
            | (dsimp only
               all_goals repeat' first
                 | split
                 | rfl)
        · exfalso; apply hne
          show (stepWorkerA s i).counter = s.counter
          unfold stepWorkerA; rw [if_pos hi, hw]
          all_goals first
            | rfl
            | (dsimp only
               all_goals repeat' first
                 | split
                 | rfl)
        · exfalso; apply hne
          show (stepWorkerA s i).counter = s.counter
          unfold stepWorkerA; rw [if_pos hi, hw]
          all_goals first
            | rfl
            | (dsimp only
               all_goals repeat' first
                 | split
                 | rfl)
        · exfalso; apply hne
          show (stepWorkerA s i).counter = s.counter
          unfold stepWorkerA; rw [if_pos hi, hw]
          all_goals first
            | rfl
            | (dsimp only
               all_goals repeat' first
                 | split
                 | rfl)
      · exfalso; apply hne
        show (stepWorkerA s i).counter = s.counter
        unfold stepWorkerA; rw [if_neg hi]

/-- C1: for every `num_tasks ≥ 1` and `loops_per_worker ≥ 1`, with every
increment of the shared counter performed under `countLock` (as the worker
loop does), every interleaving of the workers that reaches completion (main
past its `threads > 0` wait loop) ends with
`counter = num_tasks * loops_per_worker`: the sum of effects of the guarded
increments equals the number of calls. -/
theorem C1_guarded_counter_exact (numTasks loopsPerWorker : Int)
    (hN : 1 ≤ numTasks) (hL : 1 ≤ loopsPerWorker) (tr : List SchedA)
    (hdone : (execA tr (initA numTasks loopsPerWorker)).mainPc = .aMainDone) :
    (execA tr (initA numTasks loopsPerWorker)).counter = numTasks * loopsPerWorker := by
  have hIA := execA_IA numTasks loopsPerWorker (by omega) (by omega) tr
  have hphase := hIA.phase
  unfold mainInvA at hphase
  rw [hdone] at hphase
  have hcnt := hphase.2.2.2.2.1
  have hf := execA_fields tr (initA numTasks loopsPerWorker)
  have h1 : (initA numTasks loopsPerWorker).num_threads = numTasks := rfl
  have h2 : (initA numTasks loopsPerWorker).num_loops = loopsPerWorker := rfl
  rw [hcnt, hf.1, hf.2, h1, h2]
  ring

/-- Witness for C1: a complete run with one worker and one loop iteration
ends with `counter = 1 * 1`. -/
theorem C1_guarded_counter_exact_witness :
    ((1 : Int) ≤ 1 ∧ (1 : Int) ≤ 1
      ∧ (execA [.mn, .mn, .mn, .wk 0, .wk 0, .wk 0, .wk 0, .wk 0, .wk 0, .wk 0,
          .wk 0, .wk 0, .mn] (initA 1 1)).mainPc = .aMainDone)
    ∧ (execA [.mn, .mn, .mn, .wk 0, .wk 0, .wk 0, .wk 0, .wk 0, .wk 0, .wk 0,
        .wk 0, .wk 0, .mn] (initA 1 1)).counter = 1 * 1 :=
  ⟨⟨le_rfl, le_rfl, by decide⟩,
    C1_guarded_counter_exact 1 1 le_rfl le_rfl
      [.mn, .mn, .mn, .wk 0, .wk 0, .wk 0, .wk 0, .wk 0, .wk 0, .wk 0,
        .wk 0, .wk 0, .mn] (by decide)⟩

/-- C2: in every reachable state of the first revision, any step that
mutates the shared counter is a step of a worker currently holding
`countLock`, and a worker that has returned no longer holds `countLock`
(the guard is released before return). -/
theorem C2_counter_only_under_lock (numTasks loopsPerWorker : Int)
    (hN : 0 ≤ numTasks) (hL : 0 ≤ loopsPerWorker) (tr : List SchedA) (a : SchedA) :
    ((stepA a (execA tr (initA numTasks loopsPerWorker))).counter
        ≠ (execA tr (initA numTasks loopsPerWorker)).counter →
      ∃ i, a = .wk i
        ∧ (execA tr (initA numTasks loopsPerWorker)).countLock = some i)
    ∧ (∀ i, (execA tr (initA numTasks loopsPerWorker)).workers i = .aDone →
        (execA tr (initA numTasks loopsPerWorker)).countLock ≠ some i) := by
  have hIA := execA_IA numTasks loopsPerWorker hN hL tr
  constructor
  · intro hne
    exact stepA_counter_change a _ hIA hne
  · intro i hdone hlk
    obtain ⟨hlt, hcs⟩ := hIA.lockCS i hlk
    rw [hdone] at hcs
    simp [inCSA] at hcs

/-- Witness for C2: at the step where the single worker writes `counter`
back, it holds `countLock`. -/
theorem C2_counter_only_under_lock_witness :
    ((0 : Int) ≤ 1 ∧ (0 : Int) ≤ 1
      ∧ (stepA (.wk 0) (execA [.mn, .mn, .mn, .wk 0, .wk 0, .wk 0, .wk 0]
          (initA 1 1))).counter
        ≠ (execA [.mn, .mn, .mn, .wk 0, .wk 0, .wk 0, .wk 0] (initA 1 1)).counter)
    ∧ (execA [.mn, .mn, .mn, .wk 0, .wk 0, .wk 0, .wk 0] (initA 1 1)).countLock
        = some 0 := by
  refine ⟨⟨by decide, by decide, by decide⟩, ?_⟩
  obtain ⟨hx, -⟩ := C2_counter_only_under_lock 1 1 (by decide) (by decide)
    [.mn, .mn, .mn, .wk 0, .wk 0, .wk 0, .wk 0] (.wk 0)
  obtain ⟨i, hii, hlk⟩ := hx (by decide)
  injection hii with he
  rw [← he] at hlk
  exact hlk

/-- C9: the final line is recorded only with the live-worker count at 0
(never as a partial result), it reports the final counter and the expected
value `loops_per_worker * num_tasks`, and the `all_times` decomposition of
a nonnegative elapsed time into seconds and microseconds is exact (the
printed pair determines the elapsed time to the microsecond). -/
theorem C9_final_line (numTasks loopsPerWorker : Int)
    (hN : 0 ≤ numTasks) (hL : 0 ≤ loopsPerWorker) (tr : List SchedA) :
    (∀ c e, (execA tr (initA numTasks loopsPerWorker)).output = some (c, e) →
      (execA tr (initA numTasks loopsPerWorker)).threads = 0
      ∧ c = (execA tr (initA numTasks loopsPerWorker)).counter
      ∧ e = loopsPerWorker * numTasks)
    ∧ (∀ x : Int, 0 ≤ x →
        (splitUs x).1 * usPerS + (splitUs x).2 = x
        ∧ 0 ≤ (splitUs x).2 ∧ (splitUs x).2 < usPerS) := by
  have hIA := execA_IA numTasks loopsPerWorker hN hL tr
  constructor
  · intro c e hout
    have hphase := hIA.phase
    unfold mainInvA at hphase
    cases hpc : (execA tr (initA numTasks loopsPerWorker)).mainPc
    · rw [hpc] at hphase
      rw [hphase.2.2.2.2] at hout
      simp at hout
    · rw [hpc] at hphase
      rw [hphase.2.2.2.2] at hout
      simp at hout
    · rw [hpc] at hphase
      rw [hphase.2.2.1] at hout
      simp at hout
    · rw [hpc] at hphase
      obtain ⟨-, -, hthr0, -, -, houtp⟩ := hphase
      rw [hout] at houtp
      injection houtp with hpair
      have hc : c = (execA tr (initA numTasks loopsPerWorker)).counter :=
        congrArg Prod.fst hpair
      have he : e = (execA tr (initA numTasks loopsPerWorker)).num_loops
          * (execA tr (initA numTasks loopsPerWorker)).num_threads :=
        congrArg Prod.snd hpair
      have hf := execA_fields tr (initA numTasks loopsPerWorker)
      have h1 : (initA numTasks loopsPerWorker).num_threads = numTasks := rfl
      have h2 : (initA numTasks loopsPerWorker).num_loops = loopsPerWorker := rfl
      rw [hf.1, hf.2, h1, h2] at he
      exact ⟨hthr0, hc, he⟩
  · intro x hx
    unfold splitUs usPerS
    refine ⟨?_, ?_, ?_⟩
    · rw [mul_comm]; exact Int.ediv_add_emod x (1000 * 1000)
    · exact Int.emod_nonneg x (by norm_num)
    · exact Int.emod_lt_of_pos x (by norm_num)

/-- Witness for C9: in a complete one-worker one-loop run the recorded line
has `threads = 0`, and the microsecond decomposition of 2500000 microseconds is
(2 s, 500000 microseconds), which reconstructs it exactly. -/
theorem C9_final_line_witness :
    ((0 : Int) ≤ 1 ∧ (0 : Int) ≤ 1
      ∧ (execA [.mn, .mn, .mn, .wk 0, .wk 0, .wk 0, .wk 0, .wk 0, .wk 0, .wk 0,
          .wk 0, .wk 0, .mn] (initA 1 1)).output = some (1, 1)
      ∧ (0 : Int) ≤ 2500000)
    ∧ ((execA [.mn, .mn, .mn, .wk 0, .wk 0, .wk 0, .wk 0, .wk 0, .wk 0, .wk 0,
        .wk 0, .wk 0, .mn] (initA 1 1)).threads = 0
      ∧ (splitUs 2500000).1 * usPerS + (splitUs 2500000).2 = 2500000) := by
  refine ⟨⟨by decide, by decide, by decide, by decide⟩, ?_, ?_⟩
  · exact ((C9_final_line 1 1 (by decide) (by decide)
      [.mn, .mn, .mn, .wk 0, .wk 0, .wk 0, .wk 0, .wk 0, .wk 0, .wk 0,
        .wk 0, .wk 0, .mn]).1 1 1 (by decide)).1
  · exact ((C9_final_line 1 1 (by decide) (by decide)
      [.mn, .mn, .mn, .wk 0, .wk 0, .wk 0, .wk 0, .wk 0, .wk 0, .wk 0,
        .wk 0, .wk 0, .mn]).2 2500000 (by decide)).1

/-- Worker steps never change the start flag (final revision). -/
theorem stepWorkerB_start (s : StateB) (i : Nat) :
    (stepWorkerB s i).start = s.start := by
  unfold stepWorkerB
  repeat' first
    | split
    | rfl

/-- A main step either leaves the start flag unchanged or is the
`state.start = 1` statement. -/
theorem stepMainB_start (s : StateB) :
    (stepMainB s).start = s.start ∨ s.mainPc = .mSetStart := by
  cases hpc : s.mainPc
  · left; unfold stepMainB; rw [hpc]
    all_goals first
      | rfl
      | (dsimp only
         all_goals repeat' first
           | split
           | rfl)
  · left; unfold stepMainB; rw [hpc]
    all_goals first
      | rfl
      | (dsimp only
         all_goals repeat' first
           | split
           | rfl)
  · right; rfl
  · left; unfold stepMainB; rw [hpc]
    all_goals first
      | rfl
      | (dsimp only
         all_goals repeat' first
           | split
           | rfl)
  · left; unfold stepMainB; rw [hpc]
    all_goals first
      | rfl
      | (dsimp only
         all_goals repeat' first
           | split
           | rfl)
  · left; unfold stepMainB; rw [hpc]
    all_goals first
      | rfl
      | (dsimp only
         all_goals repeat' first
           | split
           | rfl)
  · left; unfold stepMainB; rw [hpc]
    all_goals first
      | rfl
      | (dsimp only
         all_goals repeat' first
           | split
           | rfl)
  · left; unfold stepMainB; rw [hpc]
    all_goals first
      | rfl
      | (dsimp only
         all_goals repeat' first
           | split
           | rfl)

/-- The start flag is never reset: once true it stays true. -/
theorem stepB_start_mono (a : TidB) (s : StateB) (hst : s.start = true) :
    (stepB a s).start = true := by
  cases a with
  | tMain =>
      rcases stepMainB_start s with he | hpc
      · show (stepMainB s).start = true
        rw [he]; exact hst
      · show (stepMainB s).start = true
        unfold stepMainB; rw [hpc]
  | tWk i =>
      show (stepWorkerB s i).start = true
      rw [stepWorkerB_start]; exact hst

/-- Once main is past its spawn loop, the number of spawned workers is
exactly `num_threads` (final revision, nonnegative worker count). -/
theorem IB_spawned_eq (s : StateB) (h : IB s) (h0 : 0 ≤ s.num_threads)
    (hns : inSpawnB s.mainPc = false) : (s.spawned : Int) = s.num_threads := by
  have h6 := h.sp_lo
  rw [hns] at h6
  rcases h6 with h6 | h6
  · simp at h6
  · have h7 := h.sp_hi h0
    have h2 := h.thr
    omega

/-- When the start flag is true, main is past its spawn loop. -/
theorem IB_start_past_spawn (s : StateB) (h : IB s) (hst : s.start = true) :
    inSpawnB s.mainPc = false := by
  have h5 := h.st
  rw [hst] at h5
  cases hpc : s.mainPc
  · rw [hpc] at h5; simp [startedB] at h5
  · rw [hpc] at h5; simp [startedB] at h5
  · rw [hpc] at h5; simp [startedB] at h5
  · rfl
  · rfl
  · rfl
  · rfl
  · rfl

/-- C3 (code-bug evidence): in the final revision with one requested worker
and one loop, in every reachable state the live-thread count equals the
number of spawned workers -- no decrement is ever executed -- so it is never
negative but also never transitions to 0 after spawning, and main never
reaches its final program point. -/
theorem C3_threads_never_decremented (tr : List TidB) :
    (execB tr (initB 1 1)).threads = ((execB tr (initB 1 1)).spawned : Int)
    ∧ 0 ≤ (execB tr (initB 1 1)).threads
    ∧ (execB tr (initB 1 1)).mainPc ≠ .mDoneB := by
  have hIB := execB_IB 1 1 tr
  have hN1 : (1 : Int) ≤ (execB tr (initB 1 1)).num_threads := by
    rw [(execB_fields tr (initB 1 1)).1]; decide
  refine ⟨hIB.thr, ?_, (hIB.nodone hN1).1⟩
  rw [hIB.thr]
  exact Int.natCast_nonneg _

/-- C4: the start flag is raised only by main's single `state.start = 1`
statement, executed only after the spawn loop has created all `num_tasks`
workers; it is never reset, and whenever any task observes the flag as true
spawning is complete. -/
theorem C4_start_after_spawn (numTasks loopsPerWorker : Int)
    (hN : 0 ≤ numTasks) (tr : List TidB) :
    ((execB tr (initB numTasks loopsPerWorker)).start = true →
      ((execB tr (initB numTasks loopsPerWorker)).spawned : Int) = numTasks)
    ∧ (∀ a, (execB tr (initB numTasks loopsPerWorker)).start = false →
        (stepB a (execB tr (initB numTasks loopsPerWorker))).start = true →
        a = .tMain
        ∧ (execB tr (initB numTasks loopsPerWorker)).mainPc = .mSetStart
        ∧ ((execB tr (initB numTasks loopsPerWorker)).spawned : Int) = numTasks)
    ∧ (∀ a, (execB tr (initB numTasks loopsPerWorker)).start = true →
        (stepB a (execB tr (initB numTasks loopsPerWorker))).start = true) := by
  have hIB := execB_IB numTasks loopsPerWorker tr
  have hNf : (execB tr (initB numTasks loopsPerWorker)).num_threads = numTasks :=
    (execB_fields tr (initB numTasks loopsPerWorker)).1
  have h0 : 0 ≤ (execB tr (initB numTasks loopsPerWorker)).num_threads := by
    rw [hNf]; exact hN
  refine ⟨?_, ?_, fun a hst => stepB_start_mono a _ hst⟩
  · intro hst
    have := IB_spawned_eq _ hIB h0 (IB_start_past_spawn _ hIB hst)
    rw [hNf] at this
    exact this
  · intro a h0' h1'
    cases a with
    | tWk i =>
        exfalso
        have h1w : (stepWorkerB (execB tr (initB numTasks loopsPerWorker)) i).start
            = true := h1'
        rw [stepWorkerB_start, h0'] at h1w
        simp at h1w
    | tMain =>
        rcases stepMainB_start (execB tr (initB numTasks loopsPerWorker)) with he | hpc
        · exfalso
          have h1m : (stepMainB (execB tr (initB numTasks loopsPerWorker))).start
              = true := h1'
          rw [he, h0'] at h1m
          simp at h1m
        · refine ⟨rfl, hpc, ?_⟩
          have hns : inSpawnB (execB tr (initB numTasks loopsPerWorker)).mainPc
              = false := by rw [hpc]; rfl
          have := IB_spawned_eq _ hIB h0 hns
          rw [hNf] at this
          exact this

/-- Witness for C4: after main locks `threadLock`, spawns the single worker
and exits the spawn loop, its next step raises the start flag, and at that
point exactly `num_tasks = 1` workers have been spawned. -/
theorem C4_start_after_spawn_witness :
    ((0 : Int) ≤ 1
      ∧ (execB [.tMain, .tMain, .tMain] (initB 1 1)).start = false
      ∧ (stepB .tMain (execB [.tMain, .tMain, .tMain] (initB 1 1))).start = true)
    ∧ ((execB [.tMain, .tMain, .tMain] (initB 1 1)).mainPc = .mSetStart
      ∧ ((execB [.tMain, .tMain, .tMain] (initB 1 1)).spawned : Int) = 1) := by
  refine ⟨⟨by decide, by decide, by decide⟩, ?_⟩
  have hc := (C4_start_after_spawn 1 1 (by decide) [.tMain, .tMain, .tMain]).2.1
    .tMain (by decide) (by decide)
  exact ⟨hc.2.1, hc.2.2⟩

/-- C5 (code-bug evidence): in the final revision a worker holds the shared
guard `mainLock` while it blocks acquiring `threadLock`, and still holds it
at the start busy-wait: the reachable states below exhibit worker 0 at the
`pthread_mutex_lock(&threadLock)` call and at the spin loop, both while
`mainLock` is held by that worker (and, in the first state, `threadLock` is
held by main). -/
theorem C5_guard_held_while_waiting :
    ((execB [.tMain, .tMain, .tWk 0, .tWk 0, .tWk 0] (initB 1 1)).workers 0
        = .wAcqTL
      ∧ (execB [.tMain, .tMain, .tWk 0, .tWk 0, .tWk 0] (initB 1 1)).mainLock
          = some (.tWk 0)
      ∧ (execB [.tMain, .tMain, .tWk 0, .tWk 0, .tWk 0] (initB 1 1)).threadLock
          = some .tMain)
    ∧ ((execB [.tMain, .tMain, .tWk 0, .tWk 0, .tWk 0, .tMain, .tMain, .tMain,
          .tWk 0] (initB 1 1)).workers 0 = .wSpin
      ∧ (execB [.tMain, .tMain, .tWk 0, .tWk 0, .tWk 0, .tMain, .tMain, .tMain,
          .tWk 0] (initB 1 1)).mainLock = some (.tWk 0)) := by
  decide

/-- C6: in the final revision every worker calls `pthread_cond_wait` before
its first increment, and the only `pthread_cond_signal` is issued by a worker
that already finished its loop; hence in every reachable state (any worker
count, any loop count, no spurious wakeups) the counter is still 0 and no
worker has completed. -/
theorem C6_deadlock_no_progress (numTasks loopsPerWorker : Int) (tr : List TidB) :
    (execB tr (initB numTasks loopsPerWorker)).counter = 0
    ∧ ∀ i, (execB tr (initB numTasks loopsPerWorker)).workers i ≠ .wDone := by
  have hIB := execB_IB numTasks loopsPerWorker tr
  refine ⟨hIB.ctr, ?_⟩
  intro i hd
  by_cases hi : i < (execB tr (initB numTasks loopsPerWorker)).spawned
  · have hp := hIB.pw i hi
    rw [hd] at hp
    simp [preWaitB] at hp
  · have hu := hIB.unsp i (by omega)
    rw [hd] at hu
    simp at hu

/-- C8 (code-bug evidence): the exit code returned from `main`'s mutex
initialization sequence is nonzero (namely -1) exactly when one of the four
`pthread_mutex_init` calls fails; but with all initializations succeeding
and one worker, the run never prints the final line and never terminates
(main never reaches its `return 0`). -/
theorem C8_exit_iff_init_failure :
    (∀ b1 b2 b3 b4 : Bool,
      (mainInitExit b1 b2 b3 b4 = none
        ↔ b1 = false ∧ b2 = false ∧ b3 = false ∧ b4 = false)
      ∧ (mainInitExit b1 b2 b3 b4 = none ∨ mainInitExit b1 b2 b3 b4 = some (-1)))
    ∧ (∀ tr : List TidB,
        (execB tr (initB 1 1)).output = none
        ∧ (execB tr (initB 1 1)).mainPc ≠ .mDoneB) := by
  constructor
  · decide
  · intro tr
    have hIB := execB_IB 1 1 tr
    have hN1 : (1 : Int) ≤ (execB tr (initB 1 1)).num_threads := by
      rw [(execB_fields tr (initB 1 1)).1]; decide
    exact ⟨(hIB.nodone hN1).2, (hIB.nodone hN1).1⟩

/-- C10: with a worker count of 0, main spawns no workers and runs straight
to completion: it locks and releases `threadLock` around the empty spawn
loop, raises the start flag, acquires `mainLock`, finds `threads = 0`
immediately and records the final line with counter 0 equal to the expected
value `num_loops * 0 = 0`. -/
theorem C10_zero_workers (loopsPerWorker : Int) :
    (execB [.tMain, .tMain, .tMain, .tMain, .tMain, .tMain, .tMain]
        (initB 0 loopsPerWorker)).mainPc = .mDoneB
    ∧ (execB [.tMain, .tMain, .tMain, .tMain, .tMain, .tMain, .tMain]
        (initB 0 loopsPerWorker)).spawned = 0
    ∧ (execB [.tMain, .tMain, .tMain, .tMain, .tMain, .tMain, .tMain]
        (initB 0 loopsPerWorker)).counter = 0
    ∧ (execB [.tMain, .tMain, .tMain, .tMain, .tMain, .tMain, .tMain]
        (initB 0 loopsPerWorker)).output = some (0, 0) := by
  refine ⟨rfl, rfl, rfl, ?_⟩
  have hr : (execB [.tMain, .tMain, .tMain, .tMain, .tMain, .tMain, .tMain]
      (initB 0 loopsPerWorker)).output = some (0, loopsPerWorker * 0) := rfl
  rw [hr, mul_zero]

/-- Bounds carried by a digit character. -/
theorem isDigitC_bounds {c : Char} (hc : isDigitC c = true) :
    48 ≤ c.toNat ∧ c.toNat ≤ 57 := by
  simpa [isDigitC, Bool.and_eq_true, decide_eq_true_eq] using hc

/-- A digit character is not whitespace. -/
theorem digit_not_space {c : Char} (hc : isDigitC c = true) : isSpaceC c = false := by
  have h1 := isDigitC_bounds hc
  simp [isSpaceC]
  omega

/-- The digit loop of `atoi` on an all-digit list computes the decimal
value, shifted into the accumulator. -/
theorem atoiDigits_all_digits (ds : List Char)
    (hall : ∀ c ∈ ds, isDigitC c = true) :
    ∀ acc : Int, atoiDigits acc ds = acc * 10 ^ ds.length + decNumber ds := by
  induction ds with
  | nil =>
      intro acc
      simp [atoiDigits, decNumber]
  | cons c cs ih =>
      intro acc
      have hc := hall c (List.mem_cons_self c cs)
      have hrest : ∀ x ∈ cs, isDigitC x = true :=
        fun x hx => hall x (List.mem_cons_of_mem c hx)
      have hb := isDigitC_bounds hc
      have hstep : atoiDigits acc (c :: cs)
          = atoiDigits (acc * 10 + digitVal c) cs := by
        simp [atoiDigits, hc]
      rw [hstep, ih hrest]
      have hdec : decNumber (c :: cs) = decNumber cs + digitVal c * 10 ^ cs.length := by
        unfold decNumber
        rw [List.map_cons, List.reverse_cons, Nat.ofDigits_append,
          Nat.ofDigits_singleton, List.length_reverse, List.length_map]
        unfold digitVal
        push_cast [Nat.cast_sub hb.1]
        ring
      rw [hdec]
      simp [List.length_cons]
      ring

/-- An all-digit argument is not consumed by whitespace skipping. -/
theorem dropWhile_digits (ds : List Char) (hall : ∀ c ∈ ds, isDigitC c = true) :
    ds.dropWhile isSpaceC = ds := by
  cases ds with
  | nil => rfl
  | cons c cs =>
      have hns := digit_not_space (hall c (List.mem_cons_self c cs))
      simp [List.dropWhile, hns]

/-- `atoi` on an all-digit argument returns its decimal value. -/
theorem atoi_all_digits (ds : List Char) (hall : ∀ c ∈ ds, isDigitC c = true) :
    atoi ds = decNumber ds := by
  unfold atoi
  rw [dropWhile_digits ds hall]
  cases ds with
  | nil => simp [atoiSigned, decNumber]
  | cons c cs =>
      have hc := hall c (List.mem_cons_self c cs)
      have hplus : ¬ c = '+' := fun he => absurd (he ▸ hc) (by decide)
      have hminus : ¬ c = '-' := fun he => absurd (he ▸ hc) (by decide)
      have hsig : atoiSigned (c :: cs) = atoiDigits 0 (c :: cs) := by
        unfold atoiSigned
        dsimp only
        rw [if_neg hplus, if_neg hminus]
      rw [hsig, atoiDigits_all_digits (c :: cs) hall 0]
      ring

/-- C7 counterexample: with the single positional argument `abc` (no
leading digits), the worker count parses to 0 via `atoi`, not to the
documented default of 2. -/
theorem C7_nonnumeric_gives_zero_not_default :
    (parseArgs [['p', '2'], ['a', 'b', 'c']]).1 = 0
    ∧ ((0 : Int) ≠ defaultThreads)
    ∧ parseArgs [['p', '2'], ['a', 'b', 'c']] ≠ (defaultThreads, defaultLoops) := by
  decide

/-- C7 (amended): a missing positional argument falls back to that
position's default (2 workers, 10,000,000 loops); a supplied argument is
converted with C `atoi` semantics, so a decimal-digit argument is used as
given (its decimal value), while an argument with no leading number (first
character not whitespace, sign, or digit) yields 0, not the default. -/
theorem C7_parse_semantics :
    (∀ pn, parseArgs [pn] = (defaultThreads, defaultLoops))
    ∧ parseArgs [] = (defaultThreads, defaultLoops)
    ∧ (∀ pn a, parseArgs [pn, a] = (atoi a, defaultLoops))
    ∧ (∀ pn a b, parseArgs [pn, a, b] = (atoi a, atoi b))
    ∧ (∀ ds : List Char, (∀ c ∈ ds, isDigitC c = true) → atoi ds = decNumber ds)
    ∧ (∀ c cs, isSpaceC c = false → isDigitC c = false → c ≠ '+' → c ≠ '-' →
        atoi (c :: cs) = 0) := by
  refine ⟨fun pn => rfl, rfl, fun pn a => rfl, fun pn a b => rfl,
    atoi_all_digits, ?_⟩
  intro c cs hsp hdg hplus hminus
  unfold atoi
  rw [List.dropWhile_cons]
  rw [hsp]
  show atoiSigned (c :: cs) = 0
  unfold atoiSigned
  dsimp only
  rw [if_neg hplus, if_neg hminus]
  show atoiDigits 0 (c :: cs) = 0
  unfold atoiDigits
  have hcond : ¬ (isDigitC c = true) := by rw [hdg]; simp
  rw [if_neg hcond]

/-- Witness for C7 (amended): the all-digit argument `42` parses to its
decimal value 42. -/
theorem C7_parse_semantics_witness :
    (∀ c ∈ (['4', '2'] : List Char), isDigitC c = true)
    ∧ atoi ['4', '2'] = decNumber ['4', '2']
    ∧ decNumber ['4', '2'] = 42 := by
  refine ⟨by decide, ?_, by decide⟩
  exact C7_parse_semantics.2.2.2.2.1 ['4', '2'] (by decide)

end Mutexes
